import Mathlib

/-!
Verification of git-fastcdc (src/git_fastcdc.py) against its specification.

This file shallowly embeds the parts of `git_fastcdc.py` that the verified
claims are about.  Conventions of the embedding:

* Byte strings are `List Nat` (one `Nat` per byte); text strings are
  `List Char`.  UTF-8 encoding of the ASCII-only protocol strings is modelled
  by `Char.toNat`.
* `pathlib.Path` values are modelled structurally as their list of components
  (`PyPath`), exactly as pathlib stores them; `Path.name`, `Path.stem`,
  `Path.with_suffix` and `Path(str)` are implemented from pathlib's rules
  (last component; strip the last dot suffix when the last dot sits strictly
  inside the name; split a string on `/` discarding empty components).
* Python `str.splitlines` / `str.strip` are modelled for the `\n`-newline,
  ASCII-whitespace fragment that the filter's data actually inhabits
  (manifest lines, attribute lines); `splitSep` is the generic splitter.
* External collaborators (the `fastcdc` chunker, `git hash-object`,
  `git cat-file`, `fnmatch`, `shlex.split`) are oracle parameters of the
  embedded functions; claims hypothesise exactly what the spec assumes of
  them.
* Machine integers do not occur: Python integers are unbounded, as is `Nat`.
  In `get_avg_size`, Python's `int(size / 32)` is modelled as floor division
  `size / 32` (exact for every realistic size; float rounding of sizes
  beyond 2^53 is outside the scope of the embedding).
-/

abbrev Byte := Nat

abbrev Str := List Char

abbrev PyPath := List Str

/-- Python `str.isspace` characters relevant to ASCII protocol text
(`str.strip()` with no argument strips these). -/
def isPySpace (c : Char) : Bool :=
  c = ' ' || c = '\t' || c = '\n' || c = '\r' || c = '\x0b' || c = '\x0c'

/-- Python `s.lstrip()`. -/
def lstrip (s : Str) : Str := s.dropWhile isPySpace

/-- Python `s.rstrip()`. -/
def rstrip (s : Str) : Str := (s.reverse.dropWhile isPySpace).reverse

/-- Python `s.strip()`. -/
def pystrip (s : Str) : Str := rstrip (lstrip s)

/-- Split a string at every occurrence of `sep`, the separators being
consumed; a trailing separator does not produce a trailing empty piece.
With `sep = newline` this is Python `str.splitlines` (restricted to
newline-only line breaks); with `sep = slash` it is the component splitting
performed by `pathlib.PurePath`. -/
def splitSep (sep : Char) (s : Str) : List Str :=
  if h : s = [] then []
  else
    s.takeWhile (fun c => c ≠ sep) :: splitSep sep ((s.dropWhile (fun c => c ≠ sep)).drop 1)
termination_by s.length
decreasing_by
  have h1 : (s.dropWhile (fun c => decide (c ≠ sep))).length ≤ s.length :=
    (List.dropWhile_suffix _).length_le
  have h2 : 0 < s.length := List.length_pos.mpr h
  simp only [List.length_drop]
  omega

/-- Python `str.splitlines` (newline-only fragment). -/
def splitlines (s : Str) : List Str := splitSep '\n' s

/-- Concatenate the pieces, terminating each with `sep`; the left inverse of
`splitSep sep` on separator-free pieces.  `joinSep newline` is what a loop of
`f.write(f"{line}\n")` produces. -/
def joinSep (sep : Char) (ls : List Str) : Str := (ls.map (fun l => l ++ [sep])).flatten

/-- Python `needle in hay` on strings (substring containment), executable. -/
def hasSub (needle hay : Str) : Bool := hay.tails.any (fun t => needle.isPrefixOf t)

/-- Index of the last `.` in a file name, `pathlib` style (`name.rfind(".")`,
as `Option`). -/
def last_dot_idx : Str → Option Nat
  | [] => none
  | c :: rest =>
    match last_dot_idx rest with
    | some i => some (i + 1)
    | none => if c = '.' then some 0 else none

/-- `pathlib` stem of a file *name*: drop the final suffix when the last dot
sits at an index `i` with `0 < i < len - 1`, otherwise keep the name. -/
def name_stem (n : Str) : Str :=
  match last_dot_idx n with
  | none => n
  | some i => if 0 < i ∧ i + 1 < n.length then n.take i else n

/-- `Path.name`: the last component (empty for an empty path). -/
def path_name (p : PyPath) : Str := p.getLast?.getD []

/-- `Path.stem`. -/
def path_stem (p : PyPath) : Str := name_stem (path_name p)

/-- `Path.with_suffix`: replace (or add, for a suffix-free name) the final
suffix of the last component. -/
def with_suffix (p : PyPath) (suffix : Str) : PyPath :=
  p.dropLast ++ [name_stem (path_name p) ++ suffix]

/-- `Path(s)` for a relative string path: split on `/`, dropping empty
components (pathlib collapses repeated and trailing slashes). -/
def pathOfString (s : Str) : PyPath := (splitSep '/' s).filter (fun c => c ≠ [])

/-! ### Constants of git_fastcdc.py (lines 16-21) -/

def cdcdir : PyPath := [".cdc".data]

def cdcmatchS : Str := ".cdc/**/*.cdc".data

def cdclineS : Str := "/.cdc/**/*.cdc binary filter=git_fastcdc".data

def cdcattrS : Str := "/.gitattributes text -binary -filter".data

def avg_min : Nat := 128 * 1024

/-! ### Adaptive average chunk size (`get_avg_size`, lines 139-143) -/

/-- `get_avg_size(size)`: `box = int(size / 32)`, `bits = box.bit_length()`,
`shift = max(bits - 5, 0)`, result `(box >> shift) << shift`.
`Nat.size` is Python's `int.bit_length` (both send 0 to 0). -/
def get_avg_size (size : Nat) : Nat :=
  let box := size / 32
  let bits := Nat.size box
  let shift := max (bits - 5) 0
  (box >>> shift) <<< shift

/-! ### `chunk_string` (lines 132-136) -/

/-- `chunk_string(input_string, chunk_size=65516)`: the spanSlices
`input_string[i : i + chunk_size]` for `i in range(0, len(input_string),
chunk_size)` (that range has `ceil(len / chunk_size)` elements). -/
def chunk_string (s : List Byte) (cs : Nat := 65516) : List (List Byte) :=
  (List.range ((s.length + cs - 1) / cs)).map (fun i => (s.drop (i * cs)).take cs)

/-! ### Packet framing (`read_pkt_line`, lines 33-43) -/

/-- Value of one ASCII hex digit byte, as accepted by `int(_, 16)`. -/
def hexVal (b : Byte) : Option Nat :=
  if 48 ≤ b ∧ b ≤ 57 then some (b - 48)
  else if 97 ≤ b ∧ b ≤ 102 then some (b - 87)
  else if 65 ≤ b ∧ b ≤ 70 then some (b - 55)
  else none

/-- `int(bytes, 16)`: `none` models the `ValueError` raised on an empty or
non-hexadecimal argument (the sign/whitespace liberality of `int` is not
exercised by 4-byte length prefixes). -/
def parseHex (l : List Byte) : Option Nat :=
  if l = [] then none
  else l.foldl (fun acc b => acc.bind (fun a => (hexVal b).map (fun v => 16 * a + v))) (some 0)

/-- `read_pkt_line()` over an explicit input stream.  `read(n)` on a buffered
stream returns up to `n` bytes (fewer at end of stream, with no error), and
`read(k)` for negative `k` reads to end of stream — which is what
`read(length - 4)` does when the parsed length is 1, 2 or 3.  The `.error`
branch is the uncaught `ValueError` of `int(length_hex, 16)`, fatal to the
session.  Returns the payload and the rest of the stream. -/
def read_pkt_line (s : List Byte) : Except Unit (List Byte × List Byte) :=
  let length_hex := s.take 4
  let s1 := s.drop 4
  if length_hex = [] then .ok ([], s1)
  else
    match parseHex length_hex with
    | none => .error ()
    | some length =>
      if length = 0 then .ok ([], s1)
      else if length < 4 then .ok (s1, [])
      else .ok (s1.take (length - 4), s1.drop (length - 4))

/-! ### Output events -/

/-- ASCII/UTF-8 encoding of protocol text. -/
def strBytes (s : Str) : List Byte := s.map Char.toNat

/-- One observable output action: `write_pkt_line` of a payload, or
`flush_pkt()` (the `0000` marker). -/
inductive OutEvt where
  | pkt (data : List Byte)
  | flush
deriving DecidableEq

def statusLine : Str := "status=success\n".data

/-! ### `smudge_cdc` (lines 197-205) -/

/-- `smudge_cdc(pathname, blob)`: drain and discard the payload packets,
write `status=success` and a flush, `assert pathname.stem == blob`, then
write the blob hash as one packet and two flushes.  The returned `Bool` is
`false` when the assertion fires (fatal `AssertionError`, after the status
packets were already emitted); the event list is everything written before
the failure point. -/
def smudge_cdc (_payload : List (List Byte)) (pathname : PyPath) (blob : Option Str) :
    List OutEvt × Bool :=
  let hdr : List OutEvt := [.pkt (strBytes statusLine), .flush]
  match blob with
  | some b =>
    if path_stem pathname = b then (hdr ++ [.pkt (strBytes b), .flush, .flush], true)
    else (hdr, false)
  | none => (hdr, false)

/-! ### Request header loop (`process`, lines 285-297) -/

/-- The `treeish`/`ref`/`blob` request headers collected by `process`. -/
structure Hdrs where
  blob : Option Str
  ref : Option Str
  treeish : Option Str
deriving DecidableEq

/-- Python `line.partition("=")` restricted to the two used fields:
text before the first `sep` and text after it (everything, and `""`,
when `sep` does not occur). -/
def partition1 (sep : Char) : Str → Str × Str
  | [] => ([], [])
  | c :: cs =>
    if c = sep then ([], cs)
    else
      let p := partition1 sep cs
      (c :: p.1, p.2)

/-- One iteration of the header loop of `process`: set `treeish`, `ref` or
`blob`; any other key reaches `RuntimeError("Unknown argument")`, an
expression statement that constructs the exception object and discards it
without raising — the state is unchanged. -/
def readHdr (st : Hdrs) (line : Str) : Hdrs :=
  let kv := partition1 '=' line
  if kv.1 = "treeish".data then { st with treeish := some kv.2 }
  else if kv.1 = "ref".data then { st with ref := some kv.2 }
  else if kv.1 = "blob".data then { st with blob := some kv.2 }
  else st

/-- The whole header loop over the non-empty header packets of one request. -/
def readHdrs (lines : List Str) : Hdrs := lines.foldl readHdr ⟨none, none, none⟩

/-! ### The clean pipeline (lines 126-129, 146-167, 170-194) -/

/-- `hash_dir(base, hash)`: `base / hash[0:2] / hash[2:4] / hash`. -/
def hash_dir (base : PyPath) (hash : Str) : PyPath :=
  base ++ [hash.take 2, (hash.drop 2).take 2, hash]

/-- The chunk's data at a fastcdc span: `buffer[cdc.offset : cdc.offset +
cdc.length]` in `clean`, and `f.seek(cdc.offset); f.read(cdc.length)` in
`clean_ondisk` — both are `(input.drop offset).take length`. -/
def spanSlice (input : List Byte) (sp : Nat × Nat) : List Byte :=
  (input.drop sp.1).take sp.2

/-- Per-chunk body of the clean loops (lines 158-164 and 183-189, which are
textually identical): store the data (`git_hash_blob`, the oracle `hashFn`),
resolve `hash_dir(cdcdir, hash).with_suffix(".cdc")`, write the hash as that
file's contents, emit `f"{path.name}\n"`.  Result: `((path, contents),
emitted line)`. -/
def store_chunk (hashFn : List Byte → Str) (data : List Byte) : (PyPath × Str) × Str :=
  let hash := hashFn data
  let path := with_suffix (hash_dir cdcdir hash) ".cdc".data
  ((path, hash), path_name path ++ ['\n'])

/-- What a clean handler produced: the average size handed to fastcdc, the
chunk-manifest files written, and the manifest lines emitted to the host. -/
structure CleanOut where
  avg_size : Nat
  files : List (PyPath × Str)
  lines : List Str

/-- `clean(pathname)` (buffered): the payload is concatenated in a
`BytesIO`, `avg_size = max(avg_min, get_avg_size(size))`, and each span the
chunker yields is stored by `store_chunk`.  The chunker (`fastcdc`) is an
oracle taking the input and the average size. -/
def clean_run (chunker : List Byte → Nat → List (Nat × Nat)) (hashFn : List Byte → Str)
    (input : List Byte) : CleanOut :=
  let size := input.length
  let avg := max avg_min (get_avg_size size)
  let recs := (chunker input avg).map (fun sp => store_chunk hashFn (spanSlice input sp))
  ⟨avg, recs.map (fun r => r.1), recs.map (fun r => r.2)⟩

/-- `clean_ondisk(pathname)`, success path, output view: the payload is
spilled to the temp file whose `stat().st_size` is the input length, and the
loop at lines 181-189 stores exactly the same chunks as the buffered
handler. -/
def clean_ondisk_out (chunker : List Byte → Nat → List (Nat × Nat)) (hashFn : List Byte → Str)
    (input : List Byte) : CleanOut :=
  let size := input.length
  let avg := max avg_min (get_avg_size size)
  let recs := (chunker input avg).map (fun sp => store_chunk hashFn (spanSlice input sp))
  ⟨avg, recs.map (fun r => r.1), recs.map (fun r => r.2)⟩

/-- The user-blob manifest: concatenation of the emitted `<hash>.cdc`
newline-terminated packet payloads of `clean`. -/
def clean_manifest (chunker : List Byte → Nat → List (Nat × Nat)) (hashFn : List Byte → Str)
    (input : List Byte) : Str :=
  (clean_run chunker hashFn input).lines.flatten

/-! ### `clean_ondisk` temp-file lifecycle (lines 170-194) -/

/-- The only filesystem state claim C9 is about: does
`.fast_cdc_tmp_file_29310b6` exist. -/
abbrev FS := Bool

/-- Python `try: body finally: fin`: the finaliser runs on the state left by
the body whether the body returned or raised; the body's outcome (value or
exception) is then propagated. -/
def tryFinallyFS {A : Type} (body : FS → Except Unit A × FS) (fin : FS → FS) (fs : FS) :
    Except Unit A × FS :=
  let r := body fs
  (r.1, fin r.2)

/-- `tmpfile.unlink()`: after it the file does not exist (if the file is
already absent it raises, but the postcondition on existence is the same). -/
def unlink_tmp (_ : FS) : FS := false

/-- The payload-receiving loop `while pkg := read_pkt_line(): f.write(pkg)`:
each element models one `read_pkt_line()` outcome — a raised I/O or framing
error (`.error`), an empty packet (ends the loop), or a payload chunk. -/
def recv_payload : List (Except Unit (List Byte)) → Except Unit (List (List Byte))
  | [] => .ok []
  | .error e :: _ => .error e
  | .ok [] :: _ => .ok []
  | .ok p :: rest => (recv_payload rest).map (fun l => p :: l)

/-- Body of the `try:` in `clean_ondisk`.  `tmpfile.open("wb")` creates the
temp file (the `FS` component becomes `true`); receiving the payload and
each `git_hash_blob` call (`hashFn`, an oracle that may fail) can raise, in
which case the exception propagates out of the body with the temp file still
present. -/
def clean_ondisk_body (pkts : List (Except Unit (List Byte)))
    (chunker : List Byte → Nat → List (Nat × Nat)) (hashFn : List Byte → Except Unit Str)
    (_fs : FS) : Except Unit CleanOut × FS :=
  match recv_payload pkts with
  | .error e => (.error e, true)
  | .ok chunks =>
    let input := chunks.flatten
    let size := input.length
    let avg := max avg_min (get_avg_size size)
    match (chunker input avg).mapM
        (fun sp => (hashFn (spanSlice input sp)).map (fun h => store_chunk (fun _ => h) (spanSlice input sp))) with
    | .error e => (.error e, true)
    | .ok recs => (.ok ⟨avg, recs.map (fun r => r.1), recs.map (fun r => r.2)⟩, true)

/-- `clean_ondisk` with its `try/finally`: the body, then `tmpfile.unlink()`
on every exit path. -/
def clean_ondisk_run (pkts : List (Except Unit (List Byte)))
    (chunker : List Byte → Nat → List (Nat × Nat)) (hashFn : List Byte → Except Unit Str)
    (fs : FS) : Except Unit CleanOut × FS :=
  tryFinallyFS (clean_ondisk_body pkts chunker hashFn) unlink_tmp fs

/-! ### `smudge` (lines 220-234) -/

/-- The reading loop of `smudge`: `read_pkt_line_str()` strips each packet,
the walrus-while stops at the first packet that strips to the empty string,
and each surviving packet contributes its `splitlines()`. -/
def smudge_lines (pkts : List Str) : List Str :=
  ((pkts.takeWhile (fun p => pystrip p ≠ [])).map (fun p => splitlines (pystrip p))).flatten

/-- One iteration of the emission loop of `smudge`: `line = line.strip()`,
`hash = Path(line).stem`, and if the stripped line is non-empty the blob
fetched for `hash` (`git_get_blob`, the oracle `fetch`) is written as
`chunk_string` packets. -/
def smudge_line_emit (fetch : Str → List Byte) (line : Str) : List (List Byte) :=
  if pystrip line ≠ [] then chunk_string (fetch (path_stem (pathOfString (pystrip line))))
  else []

/-- The emission loop of `smudge`: the response packet payloads, in order. -/
def smudge_emit (pkts : List Str) (fetch : Str → List Byte) : List (List Byte) :=
  ((smudge_lines pkts).map (smudge_line_emit fetch)).flatten

/-- The chunker's spans cover the input exactly in order: slicing the input
at the spans and concatenating gives back the input. -/
def spans_cover (spans : List (Nat × Nat)) (input : List Byte) : Prop :=
  (spans.map (spanSlice input)).flatten = input

/-- What the spec assumes of a hash returned by the object store: a
non-empty lower-case hex string. -/
def hexChars : Str := "0123456789abcdef".data

def HexName (h : Str) : Prop := h ≠ [] ∧ ∀ c ∈ h, c ∈ hexChars

/-! ### `prune` (lines 320-366) -/

def fgTok : Str := "filter=git_fastcdc".data

def starCdc : Str := "*.cdc".data

def gitattrTok : Str := ".gitattributes".data

/-- The state `prune` inspects: the `git ls-files` lines, the
`.gitattributes` lines, the staged contents (lines) of each tracked entry
(`git show :entry`), and the chunk-manifest files currently under `.cdc`. -/
structure PruneEnv where
  tracked : List Str
  attrlines : List Str
  staged : Str → List Str
  fsfiles : List PyPath

/-- Lines 349-352: tracked entries, stripped, that neither match
`.cdc/**/*.cdc` (oracle `fn`, Python `fnmatch.fnmatch(entry, pattern)`) nor
contain `.gitattributes` as a substring. -/
def prune_file_list (fn : Str → Str → Bool) (env : PruneEnv) : List Str :=
  (env.tracked.map pystrip).filter (fun e => !(fn e cdcmatchS || hasSub gitattrTok e))

/-- Lines 356-357: attribute lines that contain `filter=git_fastcdc` and are
not the tool-owned `cdcline`. -/
def qual_lines (env : PruneEnv) : List Str :=
  env.attrlines.filter (fun l => hasSub fgTok l && !(hasSub cdclineS l))

/-- `read_blobs` (lines 331-335): the `*.cdc`-matching lines of the staged
manifest of `entry`. -/
def read_blobs_of (fn : Str → Str → Bool) (env : PruneEnv) (entry : Str) : List Str :=
  (env.staged entry).filter (fun b => fn b starCdc)

/-- The live set `blobs` built by `prune` (lines 353-361): for every
qualifying attribute line, tokenize it with `shlex.split` (oracle `sh`
yields the first token, the user glob) and collect the referenced chunk
names of every file-list entry matching that glob. -/
def live_blobs (fn : Str → Str → Bool) (sh : Str → Str) (env : PruneEnv) : List Str :=
  (((qual_lines env).map (fun l =>
    ((prune_file_list fn env).filter (fun e => fn e (sh l))).map
      (read_blobs_of fn env))).flatten).flatten

/-- `prune_blobs` (lines 338-341), the deleted files: chunk files whose leaf
name is not in the live set. -/
def prune_deleted (fn : Str → Str → Bool) (sh : Str → Str) (env : PruneEnv) : List PyPath :=
  env.fsfiles.filter (fun f => !(decide (path_name f ∈ live_blobs fn sh env)))

/-- The surviving chunk files. -/
def prune_kept (fn : Str → Str → Bool) (sh : Str → Str) (env : PruneEnv) : List PyPath :=
  env.fsfiles.filter (fun f => decide (path_name f ∈ live_blobs fn sh env))

/-! ### `install` / `do_remove` (lines 369-431) -/

/-- `do_remove`'s line filter: drop lines containing `cdcline` or `cdcattr`. -/
def keepLine (l : Str) : Bool := !(hasSub cdclineS l) && !(hasSub cdcattrS l)

/-- The attribute-file transform of `do_remove` (lines 424-431): keep the
other lines, rewriting each as `f"{line}\n"`. -/
def removeT (c : Str) : Str := joinSep '\n' ((splitlines c).filter keepLine)

/-- The attribute-file transform of `install` (lines 394-402): `do_remove`
first, then read and `strip()`, then write the stripped data (newline
terminated, if non-empty) followed by the two reserved lines. -/
def installT (c : Str) : Str :=
  (if pystrip (removeT c) = [] then [] else pystrip (removeT c) ++ ['\n']) ++
    cdclineS ++ ['\n'] ++ cdcattrS ++ ['\n']

/-- The two local config keys `install` touches. -/
structure CfgState where
  process : Option Str
  required : Option Str
deriving DecidableEq

/-- `install`'s effect on the config (lines 374-393): both keys are set to
fixed values, whatever they were. -/
def installCfg (_ : CfgState) : CfgState :=
  ⟨some "git-fastcdc process".data, some "true".data⟩

/-- Full `install` state transform: attribute file (created by `touch` if
absent) and local config. -/
def install_full (st : Option Str × CfgState) : Option Str × CfgState :=
  (some (installT (st.1.getD [])), installCfg st.2)

/-! ### Concrete oracle instances used by witnesses and counterexamples -/

/-- A concrete injective object store for round-trip witnesses: byte `n`
becomes `n` letters `a` followed by the terminator `0`, after a leading
`f`; all characters are lower-case hex. -/
def wHash (d : List Byte) : Str := 'f' :: joinSep '0' (d.map (fun n => List.replicate n 'a'))

/-- The inverse fetch: split on the terminator and read off the lengths. -/
def wFetch (h : Str) : List Byte := (splitSep '0' (h.drop 1)).map List.length

/-- A concrete one-span chunker: its single span always covers the input. -/
def wChunker (input : List Byte) (_avg : Nat) : List (Nat × Nat) := [(0, input.length)]

/-- Concrete `fnmatch` oracle for the prune scenarios: a pattern of the form
`*suf` matches exactly the strings ending in `suf` (this agrees with Python
`fnmatch.fnmatch` on every pattern/string pair the scenarios use, where the
`*` is the only metacharacter and appears first). -/
def fnC (s pat : Str) : Bool := pat.take 1 == ['*'] && (pat.drop 1).isSuffixOf s

/-- Concrete `shlex.split(line)[0]` oracle: the first whitespace-delimited
token (the scenario lines contain no quoting). -/
def shC (l : Str) : Str := l.takeWhile (fun c => !isPySpace c)

def exEntry : Str := "old.gitattributes.bak".data

def exAttrLine : Str := "*.bak filter=git_fastcdc".data

def exChunkName : Str := "abc.cdc".data

def exPath : PyPath := [".cdc".data, "ab".data, "c0".data, "abc.cdc".data]

/-- A prune state with one tracked, filter-bound binary file whose path
contains `.gitattributes` as a substring without being the attribute file:
its staged manifest references the single on-disk chunk. -/
def envC : PruneEnv :=
  ⟨[exEntry], [exAttrLine], fun e => if e = exEntry then [exChunkName] else [], [exPath]⟩

def exPathW : PyPath := [".cdc".data, "zz".data, "z0".data, "zzz.cdc".data]

/-- A prune state with one ordinary tracked, filter-bound binary file whose
manifest references one of the two on-disk chunks. -/
def envW : PruneEnv :=
  ⟨["big.bin".data], ["*.bin filter=git_fastcdc".data],
    fun e => if e = "big.bin".data then [exChunkName] else [], [exPath, exPathW]⟩

/-! ## Lemmas about `splitSep` / `joinSep` -/

theorem splitSep_nil (sep : Char) : splitSep sep [] = [] := by
  rw [splitSep]
  simp

theorem splitSep_eq_cons (sep : Char) (s : Str) (h : s ≠ []) :
    splitSep sep s =
      s.takeWhile (fun c => c ≠ sep) :: splitSep sep ((s.dropWhile (fun c => c ≠ sep)).drop 1) := by
  rw [splitSep]
  simp [h]

theorem takeWhile_all (p : Char → Bool) (l : Str) (h : ∀ c ∈ l, p c = true) :
    l.takeWhile p = l := by
  induction l with
  | nil => rfl
  | cons c t ih =>
    have hc : p c = true := h c (List.mem_cons_self _ _)
    simp only [List.takeWhile_cons, hc, if_true]
    exact congrArg (c :: ·) (ih fun x hx => h x (List.mem_cons_of_mem _ hx))

theorem takeWhile_append_stop (p : Char → Bool) (l t : Str) (hl : ∀ c ∈ l, p c = true)
    (x : Char) (hx : p x = false) : (l ++ x :: t).takeWhile p = l := by
  induction l with
  | nil => simp [List.takeWhile_cons, hx]
  | cons c l ih =>
    have hc : p c = true := hl c (List.mem_cons_self _ _)
    simp only [List.cons_append, List.takeWhile_cons, hc, if_true]
    exact congrArg (c :: ·) (ih fun y hy => hl y (List.mem_cons_of_mem _ hy))

theorem dropWhile_append_stop (p : Char → Bool) (l t : Str) (hl : ∀ c ∈ l, p c = true)
    (x : Char) (hx : p x = false) : (l ++ x :: t).dropWhile p = x :: t := by
  induction l with
  | nil => simp [List.dropWhile_cons, hx]
  | cons c l ih =>
    have hc : p c = true := hl c (List.mem_cons_self _ _)
    simp only [List.cons_append, List.dropWhile_cons, hc, if_true]
    exact ih fun y hy => hl y (List.mem_cons_of_mem _ hy)

theorem splitSep_append_sep (sep : Char) (l t : Str) (hl : sep ∉ l) :
    splitSep sep (l ++ sep :: t) = l :: splitSep sep t := by
  have hall : ∀ c ∈ l, (decide (c ≠ sep)) = true := by
    intro c hc
    simp only [decide_eq_true_eq, ne_eq]
    intro hcs
    exact hl (hcs ▸ hc)
  have hsep : (decide (sep ≠ sep)) = false := by simp
  have hne : l ++ sep :: t ≠ [] := by simp
  rw [splitSep_eq_cons sep _ hne]
  rw [takeWhile_append_stop _ l t hall sep hsep, dropWhile_append_stop _ l t hall sep hsep]
  simp

theorem splitSep_sep_free (sep : Char) (s : Str) (h : s ≠ []) (hs : sep ∉ s) :
    splitSep sep s = [s] := by
  have hall : ∀ c ∈ s, (decide (c ≠ sep)) = true := by
    intro c hc
    simp only [decide_eq_true_eq, ne_eq]
    intro hcs
    exact hs (hcs ▸ hc)
  rw [splitSep_eq_cons sep s h, takeWhile_all _ s hall]
  have hdrop : s.dropWhile (fun c => decide (c ≠ sep)) = [] := by
    rw [List.dropWhile_eq_nil_iff]
    intro x hx
    exact hall x hx
  rw [hdrop]
  simp [splitSep_nil]

theorem joinSep_nil (sep : Char) : joinSep sep [] = [] := rfl

theorem joinSep_cons (sep : Char) (l : Str) (ls : List Str) :
    joinSep sep (l :: ls) = l ++ sep :: joinSep sep ls := by
  simp [joinSep]

theorem joinSep_append (sep : Char) (ls₁ ls₂ : List Str) :
    joinSep sep (ls₁ ++ ls₂) = joinSep sep ls₁ ++ joinSep sep ls₂ := by
  simp [joinSep]

theorem splitSep_joinSep_append (sep : Char) (ls : List Str) (z : Str)
    (h : ∀ l ∈ ls, sep ∉ l) :
    splitSep sep (joinSep sep ls ++ z) = ls ++ splitSep sep z := by
  induction ls with
  | nil => simp [joinSep_nil]
  | cons l ls ih =>
    rw [joinSep_cons]
    have : l ++ sep :: joinSep sep ls ++ z = l ++ sep :: (joinSep sep ls ++ z) := by simp
    rw [this, splitSep_append_sep sep l _ (h l (List.mem_cons_self _ _))]
    rw [ih fun x hx => h x (List.mem_cons_of_mem _ hx)]
    simp

theorem splitSep_joinSep (sep : Char) (ls : List Str) (h : ∀ l ∈ ls, sep ∉ l) :
    splitSep sep (joinSep sep ls) = ls := by
  have := splitSep_joinSep_append sep ls [] h
  simpa [splitSep_nil] using this

theorem splitSep_rest_length (sep : Char) (s : Str) (hnil : s ≠ []) :
    ((s.dropWhile (fun c => decide (c ≠ sep))).drop 1).length < s.length := by
  have h1 : (s.dropWhile (fun c => decide (c ≠ sep))).length ≤ s.length :=
    (List.dropWhile_suffix _).length_le
  have h2 : 0 < s.length := List.length_pos.mpr hnil
  simp only [List.length_drop]
  omega

theorem mem_splitSep_sep_free (sep : Char) (s : Str) (l : Str) (h : l ∈ splitSep sep s) :
    sep ∉ l := by
  suffices H : ∀ n (s : Str), s.length ≤ n → ∀ l ∈ splitSep sep s, sep ∉ l by
    exact H s.length s le_rfl l h
  intro n
  induction n with
  | zero =>
    intro s hs l hl
    have : s = [] := List.length_eq_zero.mp (Nat.le_zero.mp hs)
    subst this
    rw [splitSep_nil] at hl
    exact absurd hl (List.not_mem_nil _)
  | succ n ih =>
    intro s hs l hl
    by_cases hnil : s = []
    · subst hnil
      rw [splitSep_nil] at hl
      exact absurd hl (List.not_mem_nil _)
    · rw [splitSep_eq_cons sep s hnil] at hl
      rcases List.mem_cons.mp hl with h1 | h1
      · subst h1
        intro hmem
        have h2 := List.mem_takeWhile_imp hmem
        simp at h2
      · have hlt := splitSep_rest_length sep s hnil
        exact ih _ (by omega) l h1

theorem splitSep_decomp (sep : Char) (s : Str) (hmem : sep ∈ s) :
    s = s.takeWhile (fun c => decide (c ≠ sep)) ++
      sep :: (s.dropWhile (fun c => decide (c ≠ sep))).drop 1 := by
  have hd : s.dropWhile (fun c => decide (c ≠ sep)) ≠ [] := by
    intro hnil
    have := List.dropWhile_eq_nil_iff.mp hnil sep hmem
    simp at this
  obtain ⟨x, t, hxt⟩ := List.exists_cons_of_ne_nil hd
  have hx : x = sep := by
    have h1 : (s.dropWhile (fun c => decide (c ≠ sep))).head? = some x := by
      rw [hxt]; rfl
    have h2 := List.head?_dropWhile_not (fun c => decide (c ≠ sep)) s
    rw [h1] at h2
    simpa using h2
  have hs := (List.takeWhile_append_dropWhile (p := fun c => decide (c ≠ sep)) (l := s)).symm
  rw [hxt, hx] at hs
  rw [hxt]
  simpa using hs

theorem mem_splitSep_isInfix (sep : Char) (s : Str) (l : Str) (h : l ∈ splitSep sep s) :
    l <:+: s := by
  suffices H : ∀ n (s : Str), s.length ≤ n → ∀ l ∈ splitSep sep s, l <:+: s by
    exact H s.length s le_rfl l h
  intro n
  induction n with
  | zero =>
    intro s hs l hl
    have : s = [] := List.length_eq_zero.mp (Nat.le_zero.mp hs)
    subst this
    rw [splitSep_nil] at hl
    exact absurd hl (List.not_mem_nil _)
  | succ n ih =>
    intro s hs l hl
    by_cases hnil : s = []
    · subst hnil
      rw [splitSep_nil] at hl
      exact absurd hl (List.not_mem_nil _)
    · rw [splitSep_eq_cons sep s hnil] at hl
      rcases List.mem_cons.mp hl with h1 | h1
      · subst h1
        exact (List.takeWhile_prefix _).isInfix
      · have hlt := splitSep_rest_length sep s hnil
        have h2 : l <:+: (s.dropWhile (fun c => decide (c ≠ sep))).drop 1 :=
          ih _ (by omega) l h1
        have h3 : (s.dropWhile (fun c => decide (c ≠ sep))).drop 1 <:+ s :=
          (List.drop_suffix _ _).trans (List.dropWhile_suffix _)
        exact h2.trans h3.isInfix

theorem splitSep_decomp_mem (sep : Char) (s : Str) (hmem : sep ∈ s) :
    ∃ l t, s = l ++ sep :: t ∧ sep ∉ l ∧ t.length + 1 ≤ s.length ∧
      splitSep sep s = l :: splitSep sep t := by
  have hne : s ≠ [] := by
    rintro rfl
    simp at hmem
  have hnotmem : sep ∉ s.takeWhile (fun c => decide (c ≠ sep)) := by
    intro hmem2
    have := List.mem_takeWhile_imp hmem2
    simp at this
  refine ⟨s.takeWhile (fun c => decide (c ≠ sep)),
    (s.dropWhile (fun c => decide (c ≠ sep))).drop 1,
    splitSep_decomp sep s hmem, hnotmem, ?_, ?_⟩
  · have := splitSep_rest_length sep s hne
    omega
  · conv_lhs => rw [splitSep_decomp sep s hmem]
    exact splitSep_append_sep sep _ _ hnotmem

theorem joinSep_splitSep (sep : Char) (s : Str) (hne : s ≠ [])
    (hlast : s.getLast? ≠ some sep) : joinSep sep (splitSep sep s) = s ++ [sep] := by
  suffices H : ∀ n (s : Str), s.length ≤ n → s ≠ [] → s.getLast? ≠ some sep →
      joinSep sep (splitSep sep s) = s ++ [sep] by
    exact H s.length s le_rfl hne hlast
  intro n
  induction n with
  | zero =>
    intro s hs h1 _
    exact absurd (List.length_eq_zero.mp (Nat.le_zero.mp hs)) h1
  | succ n ih =>
    intro s hs h1 h2
    by_cases hmem : sep ∈ s
    · obtain ⟨l, t, rfl, hnotmem, hlen, hsplit⟩ := splitSep_decomp_mem sep s hmem
      have htne : t ≠ [] := by
        rintro rfl
        exact h2 (List.getLast?_concat _)
      have htlast : t.getLast? ≠ some sep := by
        intro hcon
        apply h2
        rw [List.getLast?_append_of_ne_nil _ (List.cons_ne_nil _ _)]
        obtain ⟨y, t2, rfl⟩ := List.exists_cons_of_ne_nil htne
        rw [List.getLast?_cons_cons]
        exact hcon
      have hlen2 : t.length ≤ n := by
        simp only [List.length_append, List.length_cons] at hs
        omega
      rw [hsplit, joinSep_cons, ih t hlen2 htne htlast]
      simp
    · rw [splitSep_sep_free sep s h1 hmem]
      simp [joinSep]

theorem infix_split_at_sep {sep : Char} {p a b : Str} (hp : sep ∉ p)
    (h : p <:+: a ++ sep :: b) : p <:+: a ∨ p <:+: b := by
  obtain ⟨s, t, hst⟩ := h
  by_cases hle : s.length + p.length ≤ a.length
  · left
    have h1 : (s ++ p ++ t).take a.length = s ++ p ++ t.take (a.length - (s ++ p).length) := by
      rw [List.take_append_eq_append_take, List.take_append_eq_append_take]
      have hsl : s.length ≤ a.length := by omega
      have hpl : p.length ≤ a.length - s.length := by omega
      rw [List.take_of_length_le hsl, List.take_of_length_le hpl]
    have h2 : (a ++ sep :: b).take a.length = a := by
      rw [List.take_append_eq_append_take]
      simp
    have h3 : s ++ p ++ t.take (a.length - (s ++ p).length) = a := by
      have h0 := congrArg (fun l : Str => l.take a.length) hst
      dsimp only at h0
      rw [h1, h2] at h0
      exact h0
    exact ⟨s, t.take (a.length - (s ++ p).length), by simpa using h3⟩
  · by_cases hs : a.length + 1 ≤ s.length
    · right
      have h1 : (s ++ p ++ t).drop (a.length + 1) = s.drop (a.length + 1) ++ p ++ t := by
        rw [List.drop_append_eq_append_drop, List.drop_append_eq_append_drop]
        have : a.length + 1 - s.length = 0 := by omega
        have h2 : a.length + 1 - (s ++ p).length = 0 := by
          simp only [List.length_append]
          omega
        rw [this, h2]
        simp
      have h2 : (a ++ sep :: b).drop (a.length + 1) = b := by
        rw [List.drop_append_eq_append_drop]
        have : a.length + 1 - a.length = 1 := by omega
        simp [this]
      have h3 : s.drop (a.length + 1) ++ p ++ t = b := by
        have h0 := congrArg (fun l : Str => l.drop (a.length + 1)) hst
        dsimp only at h0
        rw [h1, h2] at h0
        exact h0
      exact ⟨s.drop (a.length + 1), t, by simpa using h3⟩
    · exfalso
      have hsa : s.length ≤ a.length := by omega
      have h1 : (s ++ p ++ t).drop s.length = p ++ t := by
        rw [List.append_assoc, List.drop_append_eq_append_drop]
        simp
      have h2 : (a ++ sep :: b).drop s.length = a.drop s.length ++ sep :: b := by
        rw [List.drop_append_eq_append_drop]
        have hz : s.length - a.length = 0 := by omega
        rw [hz]
        simp
      have h3 : p ++ t = a.drop s.length ++ sep :: b := by
        have h0 := congrArg (fun l : Str => l.drop s.length) hst
        dsimp only at h0
        rw [h1, h2] at h0
        exact h0
      have hlen : (a.drop s.length).length + 1 ≤ p.length := by
        simp only [List.length_drop]
        omega
      have h4 := congrArg (fun l : Str => l.take ((a.drop s.length).length + 1)) h3
      simp only at h4
      rw [List.take_append_eq_append_take] at h4
      have h5 : (a.drop s.length).length + 1 - p.length = 0 := by omega
      rw [h5, List.take_zero, List.append_nil] at h4
      have h6 : (a.drop s.length ++ sep :: b).take ((a.drop s.length).length + 1)
          = a.drop s.length ++ [sep] := by
        rw [List.take_append_eq_append_take]
        simp
      rw [h6] at h4
      have hmem : sep ∈ p.take ((a.drop s.length).length + 1) := by
        rw [h4]
        simp
      exact hp (List.take_subset _ _ hmem)

theorem infix_joinSep {sep : Char} {p : Str} (ls : List Str) (hpne : p ≠ []) (hp : sep ∉ p)
    (h : p <:+: joinSep sep ls) : ∃ l ∈ ls, p <:+: l := by
  induction ls with
  | nil =>
    rw [joinSep_nil] at h
    exact absurd (List.eq_nil_of_infix_nil h) hpne
  | cons l ls ih =>
    rw [joinSep_cons] at h
    rcases infix_split_at_sep hp h with h1 | h1
    · exact ⟨l, List.mem_cons_self _ _, h1⟩
    · obtain ⟨l2, hl2, hinf⟩ := ih h1
      exact ⟨l2, List.mem_cons_of_mem _ hl2, hinf⟩

/-! ## Lemmas about `strip` -/

theorem dropWhile_all_false (p : Char → Bool) (s : Str) (h : ∀ c ∈ s, p c = false) :
    s.dropWhile p = s := by
  induction s with
  | nil => rfl
  | cons c t ih =>
    rw [List.dropWhile_cons_of_neg]
    simp [h c (List.mem_cons_self _ _)]

theorem prefix_head_eq {x y : Str} (h : x <+: y) (hne : x ≠ []) : x.head? = y.head? := by
  obtain ⟨t, rfl⟩ := h
  exact (List.head?_append_of_ne_nil _ hne).symm

theorem rstrip_prefix_self (s : Str) : rstrip s <+: s := by
  have h1 : s.reverse.dropWhile isPySpace <:+ s.reverse := List.dropWhile_suffix _
  have h2 : (rstrip s).reverse <:+ s.reverse := by
    rw [rstrip, List.reverse_reverse]
    exact h1
  exact List.reverse_suffix.mp h2

theorem lstrip_suffix_self (s : Str) : lstrip s <:+ s := List.dropWhile_suffix _

theorem pystrip_isInfix (s : Str) : pystrip s <:+: s :=
  (rstrip_prefix_self (lstrip s)).isInfix.trans (lstrip_suffix_self s).isInfix

theorem lstrip_head_not_space (s : Str) (c : Char) (h : (lstrip s).head? = some c) :
    isPySpace c = false := by
  have := List.head?_dropWhile_not isPySpace s
  rw [lstrip] at h
  rw [h] at this
  simpa using this

theorem rstrip_getLast_not_space (s : Str) (c : Char) (h : (rstrip s).getLast? = some c) :
    isPySpace c = false := by
  have h1 : (rstrip s).getLast? = (s.reverse.dropWhile isPySpace).head? := by
    rw [rstrip, List.getLast?_reverse]
  have := List.head?_dropWhile_not isPySpace s.reverse
  rw [← h1, h] at this
  simpa using this

theorem pystrip_getLast_not_space (s : Str) (c : Char) (h : (pystrip s).getLast? = some c) :
    isPySpace c = false := rstrip_getLast_not_space _ c h

theorem pystrip_head_not_space (s : Str) (c : Char) (h : (pystrip s).head? = some c) :
    isPySpace c = false := by
  have hne : pystrip s ≠ [] := by
    intro hnil
    rw [hnil] at h
    simp at h
  have h2 : (pystrip s).head? = (lstrip s).head? :=
    prefix_head_eq (rstrip_prefix_self (lstrip s)) hne
  exact lstrip_head_not_space s c (h2 ▸ h)

theorem lstrip_all_clean (s : Str) (h : ∀ c ∈ s, isPySpace c = false) : lstrip s = s :=
  dropWhile_all_false isPySpace s h

theorem rstrip_all_clean (s : Str) (h : ∀ c ∈ s, isPySpace c = false) : rstrip s = s := by
  rw [rstrip, dropWhile_all_false isPySpace s.reverse (fun c hc => h c (List.mem_reverse.mp hc)),
    List.reverse_reverse]

theorem pystrip_all_clean (s : Str) (h : ∀ c ∈ s, isPySpace c = false) : pystrip s = s := by
  rw [pystrip, lstrip_all_clean s h, rstrip_all_clean s h]

theorem lstrip_of_head_clean (s : Str) (h : ∀ c, s.head? = some c → isPySpace c = false) :
    lstrip s = s := by
  cases s with
  | nil => rfl
  | cons c t =>
    rw [lstrip, List.dropWhile_cons_of_neg]
    simp [h c rfl]

theorem rstrip_append_space (d : Str) (c₀ : Char) (hc₀ : isPySpace c₀ = true)
    (hlast : ∀ c, d.getLast? = some c → isPySpace c = false) :
    rstrip (d ++ [c₀]) = d := by
  rw [rstrip, List.reverse_append]
  simp only [List.reverse_cons, List.reverse_nil, List.nil_append, List.singleton_append]
  rw [List.dropWhile_cons_of_pos (by simpa using hc₀)]
  have hdrop : d.reverse.dropWhile isPySpace = d.reverse := by
    cases hd : d.reverse with
    | nil => rfl
    | cons x xs =>
      rw [List.dropWhile_cons_of_neg]
      have : d.getLast? = some x := by
        rw [← List.head?_reverse, hd]
        rfl
      simp [hlast x this]
  rw [hdrop, List.reverse_reverse]

theorem pystrip_append_space (d : Str) (c₀ : Char) (hc₀ : isPySpace c₀ = true)
    (hd : d ≠ []) (hh : ∀ c, d.head? = some c → isPySpace c = false)
    (hlast : ∀ c, d.getLast? = some c → isPySpace c = false) :
    pystrip (d ++ [c₀]) = d := by
  rw [pystrip, lstrip_of_head_clean]
  · exact rstrip_append_space d c₀ hc₀ hlast
  · intro c hc
    rw [List.head?_append_of_ne_nil _ hd] at hc
    exact hh c hc

/-! ## Lemmas about `chunk_string` -/

theorem chunk_string_nil (cs : Nat) : chunk_string [] cs = [] := by
  have h : (([] : List Byte).length + cs - 1) / cs = 0 := by
    rcases Nat.eq_zero_or_pos cs with h | h
    · simp [h]
    · simp only [List.length_nil, Nat.zero_add]
      exact Nat.div_eq_of_lt (by omega)
  rw [chunk_string, h]
  rfl

theorem chunk_string_count (L cs : Nat) (hcs : 0 < cs) (hL : 0 < L) :
    (L + cs - 1) / cs = ((L - cs) + cs - 1) / cs + 1 := by
  by_cases hle : L ≤ cs
  · have h1 : L + cs - 1 = (L - 1) + cs := by omega
    have h2 : L - cs = 0 := by omega
    rw [h1, Nat.add_div_right _ hcs, h2, Nat.zero_add]
    rw [Nat.div_eq_of_lt (by omega), Nat.div_eq_of_lt (by omega)]
  · have h1 : L + cs - 1 = (L - 1) + cs := by omega
    have h2 : (L - cs) + cs - 1 = L - 1 := by omega
    rw [h1, Nat.add_div_right _ hcs, h2]

theorem chunk_string_eq_cons (s : List Byte) (cs : Nat) (hcs : 0 < cs) (hs : s ≠ []) :
    chunk_string s cs = s.take cs :: chunk_string (s.drop cs) cs := by
  have hL : 0 < s.length := List.length_pos.mpr hs
  rw [chunk_string, chunk_string]
  rw [List.length_drop, chunk_string_count s.length cs hcs hL]
  rw [List.range_succ_eq_map, List.map_cons, List.map_map]
  congr 1
  · simp
  · apply List.map_congr_left
    intro i _
    simp only [Function.comp_apply]
    rw [List.drop_drop]
    congr 2
    simp [Nat.succ_mul]
    omega

theorem chunk_string_eq_nil_iff (s : List Byte) (cs : Nat) (hcs : 0 < cs) :
    chunk_string s cs = [] ↔ s = [] := by
  constructor
  · intro h
    by_contra hs
    rw [chunk_string_eq_cons s cs hcs hs] at h
    simp at h
  · intro h
    rw [h]
    exact chunk_string_nil cs

theorem chunk_string_flatten (s : List Byte) (cs : Nat) (hcs : 0 < cs) :
    (chunk_string s cs).flatten = s := by
  suffices H : ∀ n (s : List Byte), s.length ≤ n → (chunk_string s cs).flatten = s by
    exact H s.length s le_rfl
  intro n
  induction n with
  | zero =>
    intro s hs
    have : s = [] := List.length_eq_zero.mp (Nat.le_zero.mp hs)
    rw [this, chunk_string_nil]
    rfl
  | succ n ih =>
    intro s hs
    by_cases h : s = []
    · rw [h, chunk_string_nil]
      rfl
    · rw [chunk_string_eq_cons s cs hcs h, List.flatten_cons]
      have hL : 0 < s.length := List.length_pos.mpr h
      rw [ih (s.drop cs) (by simp only [List.length_drop]; omega)]
      exact List.take_append_drop cs s

theorem chunk_string_mem (s : List Byte) (cs : Nat) (hcs : 0 < cs) (c : List Byte)
    (hc : c ∈ chunk_string s cs) : c ≠ [] ∧ c.length ≤ cs := by
  suffices H : ∀ n (s : List Byte), s.length ≤ n → ∀ c ∈ chunk_string s cs,
      c ≠ [] ∧ c.length ≤ cs by
    exact H s.length s le_rfl c hc
  intro n
  induction n with
  | zero =>
    intro s hs c hc
    have : s = [] := List.length_eq_zero.mp (Nat.le_zero.mp hs)
    rw [this, chunk_string_nil] at hc
    exact absurd hc (List.not_mem_nil _)
  | succ n ih =>
    intro s hs c hc
    by_cases h : s = []
    · rw [h, chunk_string_nil] at hc
      exact absurd hc (List.not_mem_nil _)
    · rw [chunk_string_eq_cons s cs hcs h] at hc
      have hL : 0 < s.length := List.length_pos.mpr h
      rcases List.mem_cons.mp hc with h1 | h1
      · subst h1
        constructor
        · intro hnil
          have := congrArg List.length hnil
          simp only [List.length_take, List.length_nil] at this
          omega
        · simp only [List.length_take]
          omega
      · exact ih (s.drop cs) (by simp only [List.length_drop]; omega) c h1

theorem chunk_string_dropLast (s : List Byte) (cs : Nat) (hcs : 0 < cs) (c : List Byte)
    (hc : c ∈ (chunk_string s cs).dropLast) : c.length = cs := by
  suffices H : ∀ n (s : List Byte), s.length ≤ n → ∀ c ∈ (chunk_string s cs).dropLast,
      c.length = cs by
    exact H s.length s le_rfl c hc
  intro n
  induction n with
  | zero =>
    intro s hs c hc
    have : s = [] := List.length_eq_zero.mp (Nat.le_zero.mp hs)
    rw [this, chunk_string_nil] at hc
    exact absurd hc (List.not_mem_nil _)
  | succ n ih =>
    intro s hs c hc
    by_cases h : s = []
    · rw [h, chunk_string_nil] at hc
      exact absurd hc (List.not_mem_nil _)
    · rw [chunk_string_eq_cons s cs hcs h] at hc
      have hL : 0 < s.length := List.length_pos.mpr h
      by_cases hrest : chunk_string (s.drop cs) cs = []
      · rw [hrest] at hc
        simp at hc
      · rw [List.dropLast_cons_of_ne_nil hrest] at hc
        rcases List.mem_cons.mp hc with h1 | h1
        · subst h1
          have hdrop : s.drop cs ≠ [] := by
            intro hnil
            exact hrest (by rw [hnil]; exact chunk_string_nil cs)
          have : cs < s.length := by
            by_contra hcon
            exact hdrop (List.drop_eq_nil_of_le (by omega))
          simp only [List.length_take]
          omega
        · exact ih (s.drop cs) (by simp only [List.length_drop]; omega) c h1

/-! ## Lemmas about `get_avg_size` -/

theorem get_avg_size_eq (n : Nat) :
    get_avg_size n = (n / 32) / 2 ^ (Nat.size (n / 32) - 5) * 2 ^ (Nat.size (n / 32) - 5) := by
  rw [get_avg_size]
  simp only [Nat.max_eq_left (Nat.zero_le _), Nat.shiftRight_eq_div_pow, Nat.shiftLeft_eq]

theorem quantize_le_self (b : Nat) : b / 2 ^ (Nat.size b - 5) * 2 ^ (Nat.size b - 5) ≤ b :=
  Nat.div_mul_le_self b _

theorem quantize_lower (b : Nat) (hb : 0 < b) :
    2 ^ (Nat.size b - 1) ≤ b / 2 ^ (Nat.size b - 5) * 2 ^ (Nat.size b - 5) := by
  have hsz : 0 < Nat.size b := Nat.size_pos.mpr hb
  have hple : 2 ^ (Nat.size b - 1) ≤ b := Nat.lt_size.mp (by omega)
  have hs5 : Nat.size b - 5 ≤ Nat.size b - 1 := by omega
  have hdiv : 2 ^ (Nat.size b - 1 - (Nat.size b - 5)) ≤ b / 2 ^ (Nat.size b - 5) := by
    rw [← Nat.pow_div hs5 (by omega)]
    exact Nat.div_le_div_right hple
  calc 2 ^ (Nat.size b - 1)
      = 2 ^ (Nat.size b - 1 - (Nat.size b - 5)) * 2 ^ (Nat.size b - 5) := by
        rw [← Nat.pow_add]
        congr 1
        omega
    _ ≤ b / 2 ^ (Nat.size b - 5) * 2 ^ (Nat.size b - 5) :=
        Nat.mul_le_mul_right _ hdiv

theorem quantize_mono (b b' : Nat) (h : b ≤ b') :
    b / 2 ^ (Nat.size b - 5) * 2 ^ (Nat.size b - 5) ≤
      b' / 2 ^ (Nat.size b' - 5) * 2 ^ (Nat.size b' - 5) := by
  have hsz : Nat.size b ≤ Nat.size b' := Nat.size_le_size h
  by_cases heq : Nat.size b = Nat.size b'
  · rw [heq]
    exact Nat.mul_le_mul_right _ (Nat.div_le_div_right h)
  · have hlt : Nat.size b < Nat.size b' := by omega
    have hb' : 0 < b' := by
      have : 0 < Nat.size b' := by omega
      exact Nat.size_pos.mp this
    have hchain : b / 2 ^ (Nat.size b - 5) * 2 ^ (Nat.size b - 5) < 2 ^ Nat.size b :=
      Nat.lt_of_le_of_lt (quantize_le_self b) (Nat.lt_size_self b)
    have hpow : (2 : Nat) ^ Nat.size b ≤ 2 ^ (Nat.size b' - 1) :=
      Nat.pow_le_pow_right (by omega) (by omega)
    exact Nat.le_trans (Nat.le_of_lt (Nat.lt_of_lt_of_le hchain hpow)) (quantize_lower b' hb')

theorem get_avg_size_mono (m n : Nat) (h : m ≤ n) : get_avg_size m ≤ get_avg_size n := by
  rw [get_avg_size_eq, get_avg_size_eq]
  exact quantize_mono (m / 32) (n / 32) (Nat.div_le_div_right h)

/-! ## Path lemmas -/

theorem last_dot_idx_no_dot (n : Str) (h : '.' ∉ n) : last_dot_idx n = none := by
  induction n with
  | nil => rfl
  | cons c t ih =>
    rw [last_dot_idx]
    rw [ih fun hc => h (List.mem_cons_of_mem _ hc)]
    have : c ≠ '.' := fun hc => h (hc ▸ List.mem_cons_self _ _)
    simp [this]

theorem name_stem_no_dot (n : Str) (h : '.' ∉ n) : name_stem n = n := by
  rw [name_stem, last_dot_idx_no_dot n h]

theorem last_dot_idx_dotcdc (h : Str) (hdot : '.' ∉ h) :
    last_dot_idx (h ++ ".cdc".data) = some h.length := by
  induction h with
  | nil => rfl
  | cons c t ih =>
    rw [List.cons_append, last_dot_idx]
    rw [ih fun hc => hdot (List.mem_cons_of_mem _ hc)]
    rfl

theorem name_stem_dotcdc (h : Str) (hne : h ≠ []) (hdot : '.' ∉ h) :
    name_stem (h ++ ".cdc".data) = h := by
  rw [name_stem, last_dot_idx_dotcdc h hdot]
  have h1 : 0 < h.length := List.length_pos.mpr hne
  have h2 : h.length + 1 < (h ++ ".cdc".data).length := by
    have hld : (h ++ ".cdc".data).length = h.length + 4 := by
      rw [List.length_append]
      rfl
    omega
  simp only [h1, h2, and_self, if_true]
  exact List.take_left h _

theorem hexChars_clean : ∀ c ∈ hexChars, c ≠ '.' ∧ c ≠ '/' ∧ isPySpace c = false := by decide

theorem hexname_no_dot (h : Str) (hh : HexName h) : '.' ∉ h := by
  intro hmem
  exact (hexChars_clean '.' (hh.2 '.' hmem)).1 rfl

theorem hexname_no_slash (h : Str) (hh : HexName h) : '/' ∉ h := by
  intro hmem
  exact (hexChars_clean '/' (hh.2 '/' hmem)).2.1 rfl

theorem hexname_clean (h : Str) (hh : HexName h) : ∀ c ∈ h, isPySpace c = false :=
  fun c hc => (hexChars_clean c (hh.2 c hc)).2.2

theorem hexname_no_newline (h : Str) (hh : HexName h) : '\n' ∉ h := by
  intro hmem
  have := hexname_clean h hh '\n' hmem
  simp [isPySpace] at this

theorem path_name_hash_dir (base : PyPath) (h : Str) :
    path_name (hash_dir base h) = h := by
  rw [path_name, hash_dir]
  rw [List.getLast?_append_of_ne_nil _ (by simp : [h.take 2, (h.drop 2).take 2, h] ≠ [])]
  rfl

theorem with_suffix_hash_dir (h : Str) (hne : h ≠ []) (hdot : '.' ∉ h) :
    with_suffix (hash_dir cdcdir h) ".cdc".data =
      [".cdc".data, h.take 2, (h.drop 2).take 2, h ++ ".cdc".data] := by
  rw [with_suffix, path_name_hash_dir, name_stem_no_dot h hdot]
  rw [hash_dir, cdcdir]
  rfl

theorem store_chunk_path (hashFn : List Byte → Str) (data : List Byte)
    (hh : HexName (hashFn data)) :
    (store_chunk hashFn data).1.1 =
      [".cdc".data, (hashFn data).take 2, ((hashFn data).drop 2).take 2,
        hashFn data ++ ".cdc".data] := by
  rw [store_chunk]
  exact with_suffix_hash_dir _ hh.1 (hexname_no_dot _ hh)

theorem store_chunk_name (hashFn : List Byte → Str) (data : List Byte)
    (hh : HexName (hashFn data)) :
    path_name (store_chunk hashFn data).1.1 = hashFn data ++ ".cdc".data := by
  rw [store_chunk_path hashFn data hh, path_name]
  rfl

theorem store_chunk_stem (hashFn : List Byte → Str) (data : List Byte)
    (hh : HexName (hashFn data)) :
    path_stem (store_chunk hashFn data).1.1 = hashFn data := by
  rw [path_stem, store_chunk_name hashFn data hh]
  exact name_stem_dotcdc _ hh.1 (hexname_no_dot _ hh)

theorem store_chunk_line (hashFn : List Byte → Str) (data : List Byte)
    (hh : HexName (hashFn data)) :
    (store_chunk hashFn data).2 = hashFn data ++ ".cdc".data ++ ['\n'] := by
  rw [store_chunk]
  rw [show (with_suffix (hash_dir cdcdir (hashFn data)) ".cdc".data) =
    (store_chunk hashFn data).1.1 from rfl]
  rw [store_chunk_name hashFn data hh]

theorem pathOfString_single (l : Str) (hne : l ≠ []) (hsl : '/' ∉ l) :
    pathOfString l = [l] := by
  rw [pathOfString, splitSep_sep_free '/' l hne hsl]
  simp [hne]

/-! ## Claim theorems -/

/-- C10: for every byte string `s`, `chunk_string s` (at the default chunk
size) concatenates back to `s` in order, every element is non-empty with
length at most 65516, every element except possibly the last has length
exactly 65516, and the empty string yields the empty list. -/
theorem c10_chunk_string_spec (s : List Byte) :
    (chunk_string s).flatten = s
    ∧ (∀ c ∈ chunk_string s, c ≠ [] ∧ c.length ≤ 65516)
    ∧ (∀ c ∈ (chunk_string s).dropLast, c.length = 65516)
    ∧ (s = [] → chunk_string s = []) := by
  refine ⟨chunk_string_flatten s 65516 (by omega), ?_, ?_, ?_⟩
  · exact fun c hc => chunk_string_mem s 65516 (by omega) c hc
  · exact fun c hc => chunk_string_dropLast s 65516 (by omega) c hc
  · intro h
    rw [h]
    exact chunk_string_nil 65516

/-- C2: both clean handlers hand fastcdc the average
`max(131072, (box >> shift) << shift)` with `box = n / 32`, `shift =
max(bit_length(box) - 5, 0)`, and that average is monotone non-decreasing in
the input length. -/
theorem c2_adaptive_avg (ck : List Byte → Nat → List (Nat × Nat)) (hf : List Byte → Str)
    (b b' : List Byte) (hle : b.length ≤ b'.length) :
    ((clean_run ck hf b).avg_size =
      max 131072
        (((b.length / 32) >>> max (Nat.size (b.length / 32) - 5) 0) <<<
          max (Nat.size (b.length / 32) - 5) 0))
    ∧ (clean_ondisk_out ck hf b).avg_size = (clean_run ck hf b).avg_size
    ∧ (clean_run ck hf b).avg_size ≤ (clean_run ck hf b').avg_size := by
  refine ⟨?_, rfl, ?_⟩
  · show max avg_min (get_avg_size b.length) = _
    rw [get_avg_size, avg_min]
  · show max avg_min (get_avg_size b.length) ≤ max avg_min (get_avg_size b'.length)
    exact max_le_max le_rfl (get_avg_size_mono _ _ hle)

/-- C2 witness: the adaptive average is computed and monotone on concrete
inputs. -/
theorem c2_adaptive_avg_witness :
    (clean_run wChunker (fun _ => ['a']) []).avg_size ≤
      (clean_run wChunker (fun _ => ['a']) [0, 1, 2]).avg_size :=
  (c2_adaptive_avg wChunker (fun _ => ['a']) [] [0, 1, 2] (by decide)).2.2

/-- C9: on every exit path of `clean_ondisk` — normal completion, a raised
error while receiving the payload, or a raised error while chunking and
storing — the temp file does not exist once the handler has returned or
propagated its exception, and the `finally` clause does not alter the
handler's outcome. -/
theorem c9_tmpfile_cleanup (pkts : List (Except Unit (List Byte)))
    (ck : List Byte → Nat → List (Nat × Nat)) (hf : List Byte → Except Unit Str) (fs0 : FS) :
    (clean_ondisk_run pkts ck hf fs0).2 = false
    ∧ (clean_ondisk_run pkts ck hf fs0).1 = (clean_ondisk_body pkts ck hf fs0).1 :=
  ⟨rfl, rfl⟩

/-- Helper: an unknown header key leaves the header state unchanged. -/
theorem readHdr_unknown (st : Hdrs) (line : Str)
    (h1 : (partition1 '=' line).1 ≠ "treeish".data)
    (h2 : (partition1 '=' line).1 ≠ "ref".data)
    (h3 : (partition1 '=' line).1 ≠ "blob".data) :
    readHdr st line = st := by
  rw [readHdr]
  simp [h1, h2, h3]

/-- C7: a header packet whose key is none of `treeish`, `ref`, `blob` is
ignored without terminating the session: the collected headers — and hence
the dispatch — are the same as if the packet were absent. -/
theorem c7_unknown_header (pre post : List Str) (line : Str)
    (h1 : (partition1 '=' line).1 ≠ "treeish".data)
    (h2 : (partition1 '=' line).1 ≠ "ref".data)
    (h3 : (partition1 '=' line).1 ≠ "blob".data) :
    readHdrs (pre ++ line :: post) = readHdrs (pre ++ post) := by
  rw [readHdrs, readHdrs, List.foldl_append, List.foldl_append, List.foldl_cons]
  rw [readHdr_unknown _ line h1 h2 h3]

/-- C7 witness: the unknown header `color=red` between two known headers
changes nothing. -/
theorem c7_unknown_header_witness :
    readHdrs (["blob=ab".data] ++ "color=red".data :: ["ref=x".data]) =
      readHdrs (["blob=ab".data] ++ ["ref=x".data]) :=
  c7_unknown_header ["blob=ab".data] ["ref=x".data] "color=red".data
    (by decide) (by decide) (by decide)

/-- C6: in `smudge_cdc`, a `blob` header differing from the pathname stem
(or a missing one) makes the assertion fail and the session die; when they
agree, the payload is drained and discarded (the output does not depend on
it) and the response is exactly the hash as one packet after
`status=success` and a flush, followed by two flush markers. -/
theorem c6_smudge_cdc_spec (payload payload2 : List (List Byte)) (pathname : PyPath)
    (blob : Option Str) :
    (blob ≠ some (path_stem pathname) → (smudge_cdc payload pathname blob).2 = false)
    ∧ (blob = some (path_stem pathname) →
        smudge_cdc payload pathname blob =
          ([.pkt (strBytes statusLine), .flush, .pkt (strBytes (path_stem pathname)),
            .flush, .flush], true)
        ∧ smudge_cdc payload pathname blob = smudge_cdc payload2 pathname blob) := by
  constructor
  · intro hne
    cases blob with
    | none => rfl
    | some b =>
      rw [smudge_cdc]
      have : path_stem pathname ≠ b := fun hc => hne (by rw [hc])
      simp [this]
  · intro heq
    subst heq
    rw [smudge_cdc, smudge_cdc]
    simp

/-- C6 witness: concrete mismatch dies after the status packets; concrete
match emits the hash packet and ignores the payload. -/
theorem c6_smudge_cdc_witness :
    (smudge_cdc [] [".cdc".data, "ab".data] (some "zz".data)).2 = false
    ∧ smudge_cdc [[1]] ["ab.cdc".data] (some "ab".data) =
        ([.pkt (strBytes statusLine), .flush,
          .pkt (strBytes (path_stem ["ab.cdc".data])), .flush, .flush], true) :=
  ⟨(c6_smudge_cdc_spec [] [] [".cdc".data, "ab".data] (some "zz".data)).1 (by decide),
    ((c6_smudge_cdc_spec [[1]] [] ["ab.cdc".data] (some "ab".data)).2 (by decide)).1⟩

/-- C4 counterexample: the stream declares a 16-byte packet (`0010`) but
only 2 payload bytes exist before end of stream; `read_pkt_line` silently
returns the 2-byte payload instead of failing, refuting the claim that a
short read mid-packet is fatal and that read-packet never silently returns a
payload shorter than the declared length. -/
theorem c4_short_read_counterexample :
    read_pkt_line [48, 48, 49, 48, 88, 89] = .ok ([88, 89], [])
    ∧ parseHex [48, 48, 49, 48] = some 16
    ∧ ([88, 89] : List Byte).length < 16 - 4 := by
  refine ⟨rfl, rfl, by decide⟩

/-- C4 amended: a malformed (non-hexadecimal) length prefix raises an
uncaught `ValueError` and is fatal to the session, but a short read
mid-packet is not detected: `read_pkt_line` returns whatever bytes are
available up to the declared length, possibly fewer, with no error. -/
theorem c4_read_pkt_line_amended (s : List Byte) :
    (s ≠ [] → parseHex (s.take 4) = none → read_pkt_line s = .error ())
    ∧ (∀ L, parseHex (s.take 4) = some L → 4 ≤ L →
        read_pkt_line s = .ok ((s.drop 4).take (L - 4), (s.drop 4).drop (L - 4))) := by
  constructor
  · intro hne hparse
    have htake : s.take 4 ≠ [] := by
      simp [List.take_eq_nil_iff, hne]
    rw [read_pkt_line]
    simp [htake, hparse]
  · intro L hparse hL
    have htake : s.take 4 ≠ [] := by
      intro hnil
      rw [hnil, parseHex] at hparse
      simp at hparse
    rw [read_pkt_line]
    have h0 : ¬L = 0 := by omega
    have h4 : ¬L < 4 := by omega
    simp [htake, hparse, h0, h4]

/-- C4 witness: a non-hex prefix is fatal; a well-formed prefix returns the
available payload. -/
theorem c4_read_pkt_line_witness :
    read_pkt_line [122, 48, 48, 48] = .error ()
    ∧ read_pkt_line [48, 48, 48, 54, 97, 98] =
        .ok ((([48, 48, 48, 54, 97, 98] : List Byte).drop 4).take (6 - 4),
          (([48, 48, 48, 54, 97, 98] : List Byte).drop 4).drop (6 - 4)) :=
  ⟨(c4_read_pkt_line_amended [122, 48, 48, 48]).1 (by decide) (by decide),
    (c4_read_pkt_line_amended [48, 48, 48, 54, 97, 98]).2 6 (by decide) (by decide)⟩

/-- Every character of a witness-store hash is the hex letter `f`, `a` or
the digit `0`. -/
theorem wHash_hex : ∀ d, HexName (wHash d) := by
  intro d
  constructor
  · simp [wHash]
  · intro c hc
    rw [wHash] at hc
    rcases List.mem_cons.mp hc with h | h
    · subst h
      decide
    · rw [joinSep] at h
      simp only [List.mem_flatten, List.mem_map] at h
      obtain ⟨piece, ⟨l2, hl2, rfl⟩, hcp⟩ := h
      obtain ⟨m, _, rfl⟩ := hl2
      rcases List.mem_append.mp hcp with h2 | h2
      · have := List.eq_of_mem_replicate h2
        subst this
        decide
      · have : c = '0' := by simpa using h2
        subst this
        decide

/-- The witness fetch inverts the witness store. -/
theorem wFetch_wHash : ∀ d, wFetch (wHash d) = d := by
  intro d
  rw [wFetch, wHash]
  simp only [List.drop_succ_cons, List.drop_zero]
  rw [splitSep_joinSep '0' _ ?hfree]
  case hfree =>
    intro l hl
    simp only [List.mem_map] at hl
    obtain ⟨n, _, rfl⟩ := hl
    intro hmem
    have := List.eq_of_mem_replicate hmem
    simp at this
  rw [List.map_map]
  have hcomp : (List.length ∘ fun n : Nat => List.replicate n 'a') = id := by
    funext n
    simp
  rw [hcomp, List.map_id]

/-- C8: every chunk-manifest file written by the clean loops (buffered and
on-disk write identical records through `store_chunk`) sits at
`.cdc/<hash[0:2]>/<hash[2:4]>/<hash>.cdc`, where the hash is the value the
object store returned for that chunk's data, its contents are exactly that
hash, and the filename stem equals the contents; the hypothesis is the
object-store guarantee that hashes are non-empty lower-case hex. -/
theorem c8_chunk_manifest_consistency (ck : List Byte → Nat → List (Nat × Nat))
    (hf : List Byte → Str) (input : List Byte) (hhex : ∀ d, HexName (hf d)) :
    ∀ pr ∈ (clean_run ck hf input).files ++ (clean_ondisk_out ck hf input).files,
      (∃ sp ∈ ck input (max avg_min (get_avg_size input.length)),
        pr.2 = hf (spanSlice input sp))
      ∧ pr.1 = [".cdc".data, pr.2.take 2, (pr.2.drop 2).take 2, pr.2 ++ ".cdc".data]
      ∧ path_stem pr.1 = pr.2 := by
  intro pr hpr
  have hmem : pr ∈ (clean_run ck hf input).files := by
    rcases List.mem_append.mp hpr with h | h
    · exact h
    · exact h
  simp only [clean_run, List.map_map, List.mem_map, Function.comp_apply] at hmem
  obtain ⟨sp, hsp, rfl⟩ := hmem
  refine ⟨⟨sp, hsp, rfl⟩, ?_, ?_⟩
  · exact store_chunk_path hf _ (hhex _)
  · exact store_chunk_stem hf _ (hhex _)

/-- C8 witness: the single chunk of a two-byte input under the witness
store has stem, contents and store hash equal. -/
theorem c8_chunk_manifest_witness :
    path_stem (store_chunk wHash (spanSlice [3, 5] (0, 2))).1.1 =
      (store_chunk wHash (spanSlice [3, 5] (0, 2))).1.2 :=
  (c8_chunk_manifest_consistency wChunker wHash [3, 5] wHash_hex
    (store_chunk wHash (spanSlice [3, 5] (0, 2))).1 (by decide)).2.2

/-! ## Round-trip lemmas -/

theorem head?_mem {α : Type} {l : List α} {c : α} (h : l.head? = some c) : c ∈ l := by
  cases l with
  | nil => simp at h
  | cons a t =>
    have : a = c := by simpa using h
    subst this
    exact List.mem_cons_self _ _

theorem getLast?_mem {α : Type} {l : List α} {c : α} (h : l.getLast? = some c) : c ∈ l := by
  obtain ⟨ys, rfl⟩ := List.getLast?_eq_some_iff.mp h
  exact List.mem_append_right _ (by simp)

theorem dotcdc_char_facts : ∀ c ∈ ".cdc".data, isPySpace c = false ∧ c ≠ '/' ∧ c ≠ '\n' := by
  decide

theorem flatten_chunk_map (spans : List (Nat × Nat)) (input : List Byte) :
    ((spans.map (fun sp => chunk_string (spanSlice input sp))).flatten).flatten =
      (spans.map (spanSlice input)).flatten := by
  induction spans with
  | nil => rfl
  | cons sp rest ih =>
    simp only [List.map_cons, List.flatten_cons, List.flatten_append]
    rw [ih, chunk_string_flatten _ 65516 (by omega)]

/-- C1: round-trip identity.  Under the gateway law `fetch (store x) = x`,
the guarantee that store hashes are non-empty lower-case hex, and exact
in-order span coverage by the chunker, smudging the manifest produced by
clean (delivered to `smudge` as its payload packet) emits packets whose
concatenation is exactly the original input. -/
theorem c1_clean_smudge_round_trip (ck : List Byte → Nat → List (Nat × Nat))
    (hf : List Byte → Str) (fetch : Str → List Byte) (B : List Byte)
    (hgw : ∀ d, fetch (hf d) = d)
    (hhex : ∀ d, HexName (hf d))
    (hcov : spans_cover (ck B (max avg_min (get_avg_size B.length))) B) :
    (smudge_emit [clean_manifest ck hf B] fetch).flatten = B := by
  set avg := max avg_min (get_avg_size B.length) with havg
  rw [spans_cover] at hcov
  have hlines : (clean_run ck hf B).lines =
      (ck B avg).map (fun sp => (hf (spanSlice B sp) ++ ".cdc".data) ++ ['\n']) := by
    simp only [clean_run, List.map_map]
    apply List.map_congr_left
    intro sp _
    exact store_chunk_line hf _ (hhex _)
  have hmanifest : clean_manifest ck hf B =
      joinSep '\n' ((ck B avg).map (fun sp => hf (spanSlice B sp) ++ ".cdc".data)) := by
    rw [clean_manifest, hlines, joinSep, List.map_map]
    rfl
  obtain ⟨ls, hls⟩ : ∃ l, l = (ck B avg).map (fun sp => hf (spanSlice B sp) ++ ".cdc".data) :=
    ⟨_, rfl⟩
  rw [← hls] at hmanifest
  have hlsprops : ∀ l ∈ ls, l ≠ [] ∧ '\n' ∉ l ∧ '/' ∉ l ∧ ∀ c ∈ l, isPySpace c = false := by
    intro l hl
    rw [hls] at hl
    obtain ⟨sp, _, rfl⟩ := List.mem_map.mp hl
    have hh := hhex (spanSlice B sp)
    refine ⟨by simp, ?_, ?_, ?_⟩
    · intro hmem
      rcases List.mem_append.mp hmem with h | h
      · exact hexname_no_newline _ hh h
      · exact (dotcdc_char_facts _ h).2.2 rfl
    · intro hmem
      rcases List.mem_append.mp hmem with h | h
      · exact hexname_no_slash _ hh h
      · exact (dotcdc_char_facts _ h).2.1 rfl
    · intro c hc
      rcases List.mem_append.mp hc with h | h
      · exact hexname_clean _ hh c h
      · exact (dotcdc_char_facts _ h).1
  by_cases hspans : ck B avg = []
  · have hm : clean_manifest ck hf B = [] := by
      rw [hmanifest, hls, hspans]
      rfl
    have hB : B = [] := by
      rw [hspans] at hcov
      simpa using hcov.symm
    rw [hm, hB]
    rfl
  · have hlsne : ls ≠ [] := by
      rw [hls]
      simp [hspans]
    obtain ⟨init, lastl, hsplit⟩ : ∃ init lastl, ls = init ++ [lastl] :=
      ⟨ls.dropLast, ls.getLast hlsne, (List.dropLast_append_getLast hlsne).symm⟩
    have hlastmem : lastl ∈ ls := by
      rw [hsplit]
      exact List.mem_append_right _ (by simp)
    have hlastprops := hlsprops lastl hlastmem
    have hinitfree : ∀ l ∈ init, '\n' ∉ l := by
      intro l hl
      exact (hlsprops l (by rw [hsplit]; exact List.mem_append_left _ hl)).2.1
    have hM : clean_manifest ck hf B = joinSep '\n' init ++ lastl ++ ['\n'] := by
      rw [hmanifest, hsplit, joinSep_append, joinSep_cons, joinSep_nil]
      simp
    have hdne : joinSep '\n' init ++ lastl ≠ [] := by
      simp [hlastprops.1]
    have hdhead : ∀ c, (joinSep '\n' init ++ lastl).head? = some c → isPySpace c = false := by
      intro c hc
      cases init with
      | nil =>
        rw [joinSep_nil, List.nil_append] at hc
        exact hlastprops.2.2.2 c (head?_mem hc)
      | cons l0 rest =>
        have hl0mem : l0 ∈ ls := by
          rw [hsplit]
          exact List.mem_append_left _ (List.mem_cons_self _ _)
        have hl0 := hlsprops l0 hl0mem
        rw [joinSep_cons, List.append_assoc, List.head?_append_of_ne_nil _ hl0.1] at hc
        exact hl0.2.2.2 c (head?_mem hc)
    have hdlast : ∀ c, (joinSep '\n' init ++ lastl).getLast? = some c → isPySpace c = false := by
      intro c hc
      rw [List.getLast?_append_of_ne_nil _ hlastprops.1] at hc
      exact hlastprops.2.2.2 c (getLast?_mem hc)
    have hstrip : pystrip (clean_manifest ck hf B) = joinSep '\n' init ++ lastl := by
      rw [hM]
      exact pystrip_append_space _ '\n' (by decide) hdne hdhead hdlast
    have hpne : pystrip (clean_manifest ck hf B) ≠ [] := by
      rw [hstrip]
      exact hdne
    have hsl : smudge_lines [clean_manifest ck hf B] = ls := by
      rw [smudge_lines]
      have htw : ([clean_manifest ck hf B].takeWhile (fun p => pystrip p ≠ [])) =
          [clean_manifest ck hf B] := by
        simp [hpne]
      rw [htw]
      simp only [List.map_cons, List.map_nil, List.flatten_cons, List.flatten_nil,
        List.append_nil]
      rw [hstrip, splitlines, splitSep_joinSep_append '\n' init lastl hinitfree,
        splitSep_sep_free '\n' lastl hlastprops.1 hlastprops.2.1]
      exact hsplit.symm
    rw [smudge_emit, hsl, hls, List.map_map]
    have hperspan : ∀ sp ∈ ck B avg,
        (smudge_line_emit fetch ∘ fun sp => hf (spanSlice B sp) ++ ".cdc".data) sp =
          chunk_string (spanSlice B sp) := by
      intro sp _
      simp only [Function.comp_apply]
      rw [smudge_line_emit]
      have hh := hhex (spanSlice B sp)
      have hcl : ∀ c ∈ hf (spanSlice B sp) ++ ".cdc".data, isPySpace c = false := by
        intro c hc
        rcases List.mem_append.mp hc with h | h
        · exact hexname_clean _ hh c h
        · exact (dotcdc_char_facts _ h).1
      rw [pystrip_all_clean _ hcl]
      have hlne : hf (spanSlice B sp) ++ ".cdc".data ≠ [] := by simp
      have hsl2 : '/' ∉ hf (spanSlice B sp) ++ ".cdc".data := by
        intro hmem
        rcases List.mem_append.mp hmem with h | h
        · exact hexname_no_slash _ hh h
        · exact (dotcdc_char_facts _ h).2.1 rfl
      rw [if_pos hlne, pathOfString_single _ hlne hsl2]
      have hst : path_stem [hf (spanSlice B sp) ++ ".cdc".data] = hf (spanSlice B sp) := by
        rw [path_stem]
        rw [show path_name [hf (spanSlice B sp) ++ ".cdc".data] =
          hf (spanSlice B sp) ++ ".cdc".data from rfl]
        exact name_stem_dotcdc _ hh.1 (hexname_no_dot _ hh)
      rw [hst, hgw]
    rw [List.map_congr_left hperspan, flatten_chunk_map]
    exact hcov

/-- C1 witness: a concrete three-byte payload survives the clean/smudge
round trip under the concrete invertible witness store. -/
theorem c1_clean_smudge_round_trip_witness :
    (smudge_emit [clean_manifest wChunker wHash [5, 0, 7]] wFetch).flatten = [5, 0, 7] :=
  c1_clean_smudge_round_trip wChunker wHash wFetch [5, 0, 7] wFetch_wHash wHash_hex
    (by rw [spans_cover]; rfl)

/-! ## Install idempotence lemmas -/

theorem hasSub_eq_true_iff (n h : Str) : hasSub n h = true ↔ n <:+: h := by
  rw [hasSub, List.any_eq_true]
  constructor
  · rintro ⟨t, ht, hp⟩
    have h1 : t <:+ h := (List.mem_tails _ _).mp ht
    have h2 : n <+: t := List.isPrefixOf_iff_prefix.mp hp
    exact List.infix_iff_prefix_suffix.mpr ⟨t, h2, h1⟩
  · intro hinf
    obtain ⟨t, h2, h1⟩ := List.infix_iff_prefix_suffix.mp hinf
    exact ⟨t, (List.mem_tails _ _).mpr h1, List.isPrefixOf_iff_prefix.mpr h2⟩

theorem reserved_not_in_kept_line (needle : Str) (hne : needle ≠ []) (hnl : '\n' ∉ needle)
    (hker : ∀ k, keepLine k = true → hasSub needle k = false)
    (c l : Str) (hl : l ∈ splitlines (pystrip (removeT c))) (hsub : needle <:+: l) :
    False := by
  have h1 : l <:+: pystrip (removeT c) := mem_splitSep_isInfix '\n' _ l hl
  have h2 : pystrip (removeT c) <:+: removeT c := pystrip_isInfix _
  have h3 : needle <:+: removeT c := (hsub.trans h1).trans h2
  rw [removeT] at h3
  obtain ⟨k, hk, hinf⟩ := infix_joinSep _ hne hnl h3
  have hkeep : keepLine k = true := List.of_mem_filter hk
  have hfalse := hker k hkeep
  have htrue : hasSub needle k = true := (hasSub_eq_true_iff _ _).mpr hinf
  rw [htrue] at hfalse
  simp at hfalse

theorem splitlines_strip_remove_keep (c : Str) :
    ∀ l ∈ splitlines (pystrip (removeT c)), keepLine l = true := by
  intro l hl
  by_cases ha : hasSub cdclineS l = true
  · exfalso
    refine reserved_not_in_kept_line cdclineS (by decide) (by decide) ?_ c l hl
      ((hasSub_eq_true_iff _ _).mp ha)
    intro k hk
    rw [keepLine, Bool.and_eq_true] at hk
    simp only [Bool.not_eq_true'] at hk
    exact hk.1
  · by_cases hb : hasSub cdcattrS l = true
    · exfalso
      refine reserved_not_in_kept_line cdcattrS (by decide) (by decide) ?_ c l hl
        ((hasSub_eq_true_iff _ _).mp hb)
      intro k hk
      rw [keepLine, Bool.and_eq_true] at hk
      simp only [Bool.not_eq_true'] at hk
      exact hk.2
    · rw [keepLine]
      simp [Bool.not_eq_true] at ha hb
      simp [ha, hb]

theorem reserved_lines_nl_free : '\n' ∉ cdclineS ∧ '\n' ∉ cdcattrS := by decide

theorem reserved_filter_empty : [cdclineS, cdcattrS].filter keepLine = [] := by decide

theorem pystrip_removeT_installT (c : Str) :
    pystrip (removeT (installT c)) = pystrip (removeT c) := by
  by_cases hd : pystrip (removeT c) = []
  · have h1 : installT c = joinSep '\n' [cdclineS, cdcattrS] := by
      rw [installT, if_pos hd]
      simp [joinSep_cons, joinSep_nil, List.append_assoc]
    have h2 : removeT (installT c) = [] := by
      rw [h1, removeT, splitlines,
        splitSep_joinSep '\n' [cdclineS, cdcattrS] (by decide), reserved_filter_empty]
      rfl
    rw [h2, hd]
    rfl
  · have hdh := pystrip_head_not_space (removeT c)
    have hdl := pystrip_getLast_not_space (removeT c)
    have hdlne : (pystrip (removeT c)).getLast? ≠ some '\n' := by
      intro hc
      have := hdl '\n' hc
      simp [isPySpace] at this
    have hkeep := splitlines_strip_remove_keep c
    have hfree : ∀ l ∈ splitlines (pystrip (removeT c)) ++ [cdclineS, cdcattrS], '\n' ∉ l := by
      intro l hl
      rcases List.mem_append.mp hl with h | h
      · exact mem_splitSep_sep_free '\n' _ l h
      · rcases List.mem_cons.mp h with h1 | h1
        · rw [h1]
          exact reserved_lines_nl_free.1
        · rw [List.mem_singleton.mp h1]
          exact reserved_lines_nl_free.2
    have h1 : installT c =
        joinSep '\n' (splitlines (pystrip (removeT c)) ++ [cdclineS, cdcattrS]) := by
      rw [installT, if_neg hd, joinSep_append]
      rw [show splitlines (pystrip (removeT c)) = splitSep '\n' (pystrip (removeT c)) from rfl]
      rw [joinSep_splitSep '\n' _ hd hdlne]
      simp [joinSep_cons, joinSep_nil, List.append_assoc]
    have h2 : removeT (installT c) = pystrip (removeT c) ++ ['\n'] := by
      rw [h1, removeT, splitlines, splitSep_joinSep '\n' _ hfree, List.filter_append,
        List.filter_eq_self.mpr hkeep, reserved_filter_empty, List.append_nil]
      exact joinSep_splitSep '\n' _ hd hdlne
    rw [h2]
    exact pystrip_append_space _ '\n' (by decide) hd hdh hdl

theorem installT_idem (c : Str) : installT (installT c) = installT c := by
  have h := pystrip_removeT_installT c
  rw [show installT (installT c) =
    (if pystrip (removeT (installT c)) = [] then []
      else pystrip (removeT (installT c)) ++ ['\n']) ++
      cdclineS ++ ['\n'] ++ cdcattrS ++ ['\n'] from rfl]
  rw [h]
  rfl

/-- C5: `install` is idempotent.  Running the install transform twice — on
the attribute file (created empty when absent) and on the two local config
keys — yields the same state as running it once. -/
theorem c5_install_idempotent (st : Option Str × CfgState) :
    install_full (install_full st) = install_full st := by
  rw [install_full, install_full]
  simp only [Option.getD_some]
  rw [installT_idem]
  rfl

/-! ## Prune lemmas -/

theorem mem_live_blobs (fn : Str → Str → Bool) (sh : Str → Str) (env : PruneEnv) (b : Str) :
    b ∈ live_blobs fn sh env ↔
      ∃ l ∈ qual_lines env, ∃ e ∈ prune_file_list fn env,
        fn e (sh l) = true ∧ b ∈ env.staged e ∧ fn b starCdc = true := by
  rw [live_blobs]
  constructor
  · intro hb
    rw [List.mem_flatten] at hb
    obtain ⟨y, hy, hby⟩ := hb
    rw [List.mem_flatten] at hy
    obtain ⟨z, hz, hyz⟩ := hy
    rw [List.mem_map] at hz
    obtain ⟨l, hl, rfl⟩ := hz
    rw [List.mem_map] at hyz
    obtain ⟨e, he, rfl⟩ := hyz
    rw [List.mem_filter] at he
    rw [read_blobs_of, List.mem_filter] at hby
    exact ⟨l, hl, e, he.1, he.2, hby.1, hby.2⟩
  · rintro ⟨l, hl, e, he, hfe, hbe, hbc⟩
    rw [List.mem_flatten]
    refine ⟨read_blobs_of fn env e, ?_, ?_⟩
    · rw [List.mem_flatten]
      refine ⟨((prune_file_list fn env).filter (fun x => fn x (sh l))).map
        (read_blobs_of fn env), ?_, ?_⟩
      · rw [List.mem_map]
        exact ⟨l, hl, rfl⟩
      · rw [List.mem_map]
        exact ⟨e, List.mem_filter.mpr ⟨he, hfe⟩, rfl⟩
    · rw [read_blobs_of, List.mem_filter]
      exact ⟨hbe, hbc⟩

/-- C3 counterexample: a tracked path that a user attribute line binds to
the filter, that is not the attribute file itself but contains
`.gitattributes` as a substring, references the only on-disk chunk — and
`prune` deletes that chunk anyway, because line 351 discards every entry
containing `.gitattributes`.  (`fnC` and `shC` agree with Python `fnmatch` /
`shlex.split(...)[0]` on every string involved.) -/
theorem c3_prune_counterexample :
    prune_deleted fnC shC envC = [exPath]
    ∧ exEntry ∈ envC.tracked
    ∧ hasSub fgTok exAttrLine = true
    ∧ hasSub cdclineS exAttrLine = false
    ∧ fnC exEntry (shC exAttrLine) = true
    ∧ exEntry ≠ ".gitattributes".data
    ∧ exChunkName ∈ envC.staged exEntry
    ∧ fnC exChunkName starCdc = true
    ∧ path_name exPath = exChunkName := by
  decide

/-- C3 amended: after `prune`, every surviving chunk file's leaf name occurs
as a `*.cdc` line in the staged manifest of some tracked, filter-bound entry
of the pruning file list — the tracked paths that, once stripped, neither
match `.cdc/**/*.cdc` nor contain the substring `.gitattributes` — and no
chunk file referenced from such an entry's staged manifest is deleted.
(Referenced chunks of filter-bound paths *outside* that file list — paths
containing `.gitattributes` without being the attribute file — are not
protected; see the counterexample.) -/
theorem c3_prune_soundness_amended (fn : Str → Str → Bool) (sh : Str → Str) (env : PruneEnv) :
    (∀ f ∈ prune_kept fn sh env,
      ∃ l ∈ qual_lines env, ∃ e ∈ prune_file_list fn env,
        fn e (sh l) = true ∧ path_name f ∈ env.staged e ∧ fn (path_name f) starCdc = true)
    ∧ (∀ f ∈ env.fsfiles,
        (∃ l ∈ qual_lines env, ∃ e ∈ prune_file_list fn env,
          fn e (sh l) = true ∧ path_name f ∈ env.staged e ∧ fn (path_name f) starCdc = true) →
        f ∈ prune_kept fn sh env ∧ f ∉ prune_deleted fn sh env) := by
  constructor
  · intro f hf
    rw [prune_kept, List.mem_filter, decide_eq_true_eq] at hf
    exact (mem_live_blobs fn sh env (path_name f)).mp hf.2
  · intro f hf hlive
    have hb : path_name f ∈ live_blobs fn sh env :=
      (mem_live_blobs fn sh env (path_name f)).mpr hlive
    constructor
    · rw [prune_kept, List.mem_filter, decide_eq_true_eq]
      exact ⟨hf, hb⟩
    · rw [prune_deleted, List.mem_filter]
      intro hcon
      rw [Bool.not_eq_true', decide_eq_false_iff_not] at hcon
      exact hcon.2 hb

/-- C3 witness: in a state with one bound tracked file referencing one of
two chunks, the referenced chunk survives and is not deleted. -/
theorem c3_prune_soundness_witness :
    exPath ∈ prune_kept fnC shC envW ∧ exPath ∉ prune_deleted fnC shC envW :=
  (c3_prune_soundness_amended fnC shC envW).2 exPath (by decide) (by decide)
